import Mathlib

/-!
# Verification of the skills-repo sync engine

A shallow embedding, in Lean 4, of the conflict-resolution, incremental-update
and remote-fetching logic of the skills-repo synchronization scripts
(`scripts/lib/conflict-resolver.js`, `scripts/lib/extractors.js`,
`scripts/lib/utils.js`), together with theorems settling the specification's
claims about them.

Modelling conventions:
* JavaScript strings become `String`; dynamic objects become structures with
  the fields the code reads, where a falsy/absent string field is modelled
  as `""`.  String primitives (`split`, `trim`, `toLowerCase`, ...) are
  re-implemented over `List Char` by structural recursion so that every
  definition evaluates inside the kernel.
* The WHATWG `new URL(...)` constructor is a platform builtin, not repository
  code; it is modelled by `tryParseURL`, a simplified parser for the
  `scheme://host/path` URLs this code base feeds it (`throw` becomes `none`).
* Network requests are oracles: a function from request coordinates to
  `Option String` (`none` models a non-ok response or an exhausted-retry
  throw).  Mutation of a shared registry array becomes explicit list passing.
-/

namespace SkillsRepo

/-! ## String primitives, kernel-computable -/

/-- The `String.split(sep)` of JavaScript, on a one-character separator:
accumulator-style scan; splitting the empty string yields `[""]`. -/
def splitOnCharAux (sep : Char) : List Char → List Char → List String
  | [], acc => [String.mk acc.reverse]
  | c :: cs, acc =>
    if c = sep then String.mk acc.reverse :: splitOnCharAux sep cs []
    else splitOnCharAux sep cs (c :: acc)

/-- JavaScript `s.split(sep)` for a one-character separator. -/
def splitOnChar (sep : Char) (s : String) : List String :=
  splitOnCharAux sep s.data []

/-- The `Array.prototype.join(sep)`. -/
def joinWith (sep : String) : List String → String
  | [] => ""
  | [x] => x
  | x :: y :: rest => x ++ sep ++ joinWith sep (y :: rest)

/-- Match a pattern (first argument) as a literal prefix of the character
list, returning the remainder. -/
def stripLit : List Char → List Char → Option (List Char)
  | [], rest => some rest
  | _, [] => none
  | p :: ps, c :: cs => if c = p then stripLit ps cs else none

/-- JavaScript `s.trim()`: strip whitespace from both ends. -/
def trimString (s : String) : String :=
  String.mk (((s.data.dropWhile Char.isWhitespace).reverse.dropWhile
    Char.isWhitespace).reverse)

/-- JavaScript `s.toLowerCase()` (ASCII case suffices for this code base). -/
def lowerString (s : String) : String :=
  String.mk (s.data.map Char.toLower)

/-! ## Origin Identifier (`parseOwnerRepo`, conflict-resolver.js lines 12-33) -/

/-- Host and pathname of a parsed URL (the only parts this code base reads). -/
structure URLParts where
  host : String
  pathname : String
deriving Repr, DecidableEq

/-- Scan for the first occurrence of `://`, returning the characters before
it (the scheme) and after it. -/
def splitSchemeAux : List Char → List Char → Option (List Char × List Char)
  | [], _ => none
  | ':' :: '/' :: '/' :: rest, acc => some (acc.reverse, rest)
  | c :: cs, acc => splitSchemeAux cs (c :: acc)

/-- Split a character list at the first `://`. -/
def splitScheme (cs : List Char) : Option (List Char × List Char) :=
  splitSchemeAux cs []

/-- Model of the WHATWG `new URL(s)` constructor, restricted to the
`scheme://host/path` shape: `none` models the constructor throwing.
The scheme must be non-empty alphabetic and the host non-empty; the pathname
runs from the first `/` after the host to the first `?` or `#` (defaulting
to `"/"` when absent), as the real constructor produces on such inputs. -/
def tryParseURL (s : String) : Option URLParts :=
  match splitScheme s.data with
  | none => none
  | some (schemeChars, afterScheme) =>
    if schemeChars ≠ [] ∧ schemeChars.all Char.isAlpha then
      let hostChars := afterScheme.takeWhile (fun c => c ≠ '/' ∧ c ≠ '?' ∧ c ≠ '#')
      if hostChars = [] then none
      else
        let rest := afterScheme.dropWhile (fun c => c ≠ '/' ∧ c ≠ '?' ∧ c ≠ '#')
        let pathChars := rest.takeWhile (fun c => c ≠ '?' ∧ c ≠ '#')
        some ⟨String.mk hostChars, if pathChars = [] then "/" else String.mk pathChars⟩
    else none

/-- The `s.replace(/\.git$/, "")` from `parseOwnerRepo`. -/
def stripGitSuffix (s : String) : String :=
  let rev := s.data.reverse
  if rev.take 4 = ('t' :: 'i' :: 'g' :: '.' :: []) then
    String.mk ((rev.drop 4).reverse)
  else s

/-- One attempt of the regex `/github\.com\/([^\/]+)\/([^\/\.]+)/` at a fixed
start position: literal `github.com/`, then a non-empty run of non-`/`
characters (group 1), a `/`, and a non-empty run of characters that are
neither `/` nor `.` (group 2).  Both character classes are matched greedily,
which for these patterns is deterministic. -/
def matchGithubAt (cs : List Char) : Option (String × String) :=
  match stripLit "github.com/".data cs with
  | none => none
  | some rest =>
    let ownerChars := rest.takeWhile (fun c => c ≠ '/')
    if ownerChars = [] then none
    else
      match rest.dropWhile (fun c => c ≠ '/') with
      | '/' :: rest2 =>
        let repoChars := rest2.takeWhile (fun c => c ≠ '/' ∧ c ≠ '.')
        if repoChars = [] then none
        else some (String.mk ownerChars, String.mk repoChars)
      | _ => none

/-- The `sourceUrl.match(/github\.com\/([^\/]+)\/([^\/\.]+)/)`: scan left to
right for the first position where `matchGithubAt` succeeds. -/
def githubFallbackMatch : List Char → Option (String × String)
  | [] => none
  | c :: cs =>
    match matchGithubAt (c :: cs) with
    | some r => some r
    | none => githubFallbackMatch cs

/-- The `parseOwnerRepo(sourceUrl)` from `scripts/lib/conflict-resolver.js`
(an identical copy exists in the unnamed extractor source): empty input short
circuits; a parseable URL takes the first two non-empty pathname segments
(with a `.git` suffix stripped from the second); a parse failure falls back
to the `github.com/owner/repo` regex; every remaining case yields two empty
fields. -/
def parseOwnerRepo (sourceUrl : String) : String × String :=
  if sourceUrl = "" then ("", "")
  else
    match tryParseURL sourceUrl with
    | some u =>
      match (splitOnChar '/' u.pathname).filter (fun p => p ≠ "") with
      | owner :: repo :: _ => (owner, stripGitSuffix repo)
      | _ => ("", "")
    | none =>
      match githubFallbackMatch sourceUrl.data with
      | some pr => pr
      | none => ("", "")

/-! ## Conflict data model -/

/-- A skill record, with the fields the conflict resolver reads.  A falsy
(absent or empty) field of the underlying JavaScript object is `""`;
`originalName` is the audit field attached by a rename. -/
structure SkillRecord where
  name : String
  owner : String
  repo : String
  sourceUrl : String
  version : String
  author : String
  originalName : Option String := none
deriving Repr, DecidableEq

/-- The idiom `record.owner || parseOwnerRepo(record.sourceUrl).owner`
used throughout the conflict resolver. -/
def derivedOwner (r : SkillRecord) : String :=
  if r.owner = "" then (parseOwnerRepo r.sourceUrl).1 else r.owner

/-- The `ConflictResolver.isConflict(existing, incoming)`: `existing` may be
absent (`none`); a conflict is same name with different derived owners. -/
def isConflict (existing : Option SkillRecord) (incoming : SkillRecord) : Bool :=
  match existing with
  | none => false
  | some e =>
    if e.name = incoming.name ∧ derivedOwner e ≠ derivedOwner incoming then true
    else false

/-- The `ConflictContext`: one detected collision (the mutable `resolution`
bookkeeping field is write-only in the source and omitted here). -/
structure ConflictContext where
  existing : SkillRecord
  incoming : SkillRecord
deriving Repr, DecidableEq

/-- The `ConflictContext.getRenamedName()`: owner (with `sourceUrl` fallback),
a dash, and the incoming name. -/
def ConflictContext.getRenamedName (ctx : ConflictContext) : String :=
  derivedOwner ctx.incoming ++ "-" ++ ctx.incoming.name

/-- The idiom `record.repo || record.name` used in the cascading warning. -/
def repoOrName (r : SkillRecord) : String :=
  if r.repo = "" then r.name else r.repo

/-- The outcome of `ConflictResolver.handleConflict`: `skip`,
`replace` (with its optional warning and audit name from the cascading
branch), or `rename`. -/
inductive ResolutionResult where
  | skip
  | replace (target : String) (warning : Option String) (originalName : Option String)
  | rename (newName : String) (originalName : String)
deriving Repr, DecidableEq

/-- The warning emitted by the cascading (second-order collision) branch of
`handleConflict`. -/
def conflictWarning (newName existingOwner existingRepo incomingOwner
    incomingRepo : String) : String :=
  "⚠️  告警: 存在替换同名技能 " ++ (newName ++ " 的操作\n   " ++
    existingOwner ++ "/" ++ existingRepo ++ " 将被 " ++
    incomingOwner ++ "/" ++ incomingRepo ++ " 替换")

/-- The `ConflictResolver.handleConflict(context, allLocalSkills)`, as a function
of the chosen letter (`s`/`r`/`k`; in non-interactive mode the first letter
of the default strategy, interactively the trimmed lower-cased answer).
Any unrecognized choice degrades to `skip`.  The `k` branch computes the
renamed identifier, searches the registry for an occupant of that name, and
returns either the cascading `replace`-with-warning or a `rename`. -/
def handleConflict (choice : Char) (ctx : ConflictContext)
    (allLocalSkills : List SkillRecord) : ResolutionResult :=
  if choice = 's' then .skip
  else if choice = 'r' then .replace ctx.existing.name none none
  else if choice = 'k' then
    let newName := ctx.getRenamedName
    match allLocalSkills.find? (fun s => decide (s.name = newName)) with
    | some occupant =>
      let warning := conflictWarning newName (derivedOwner occupant)
        (repoOrName occupant) (derivedOwner ctx.incoming) (repoOrName ctx.incoming)
      .replace newName (some warning) (some ctx.incoming.name)
    | none => .rename newName ctx.incoming.name
  else .skip

/-- The `findIndex` + in-place assignment from `applyResolution`'s `replace`
branch: overwrite the first record whose name is `target`. -/
def replaceFirstByName (target : String) (newRec : SkillRecord) :
    List SkillRecord → List SkillRecord
  | [] => []
  | s :: rest =>
    if s.name = target then newRec :: rest
    else s :: replaceFirstByName target newRec rest

/-- The `ConflictResolver.applyResolution(context, result, allLocalSkills)`:
`skip` leaves the registry alone; `replace` overwrites the entry named
`target` with the incoming record renamed to `target`; `rename` appends the
incoming record under the new name, tagged with its original name. -/
def applyResolution (ctx : ConflictContext) (result : ResolutionResult)
    (allLocalSkills : List SkillRecord) : List SkillRecord :=
  match result with
  | .skip => allLocalSkills
  | .replace target _ _ =>
    replaceFirstByName target { ctx.incoming with name := target } allLocalSkills
  | .rename newName originalName =>
    allLocalSkills ++
      [{ ctx.incoming with name := newName, originalName := some originalName }]

/-- The loop body of `ConflictResolver.resolveAll`: resolve the queue in
FIFO order, threading the mutated registry, collecting one result per
context.  `choiceAt i` is the operator's (or default strategy's) letter for
the `i`-th conflict. -/
def resolveAllGo (choiceAt : Nat → Char) : Nat → List ConflictContext →
    List SkillRecord → List ResolutionResult × List SkillRecord
  | _, [], reg => ([], reg)
  | i, ctx :: rest, reg =>
    let result := handleConflict (choiceAt i) ctx reg
    let reg2 := applyResolution ctx result reg
    let next := resolveAllGo choiceAt (i + 1) rest reg2
    (result :: next.1, next.2)

/-- The `ConflictResolver.resolveAll(allLocalSkills)` (resolved-history pairing
is recovered by zipping the queue with the returned results). -/
def resolveAll (choiceAt : Nat → Char) (queue : List ConflictContext)
    (reg : List SkillRecord) : List ResolutionResult × List SkillRecord :=
  resolveAllGo choiceAt 0 queue reg

/-- The registry state after the first `n` conflicts of the queue have been
resolved and applied (the derived quantity C4 speaks about). -/
def registryAfter (choiceAt : Nat → Char) : Nat → List ConflictContext →
    List SkillRecord → Nat → List SkillRecord
  | _, _, reg, 0 => reg
  | _, [], reg, _ + 1 => reg
  | i, ctx :: rest, reg, n + 1 =>
    registryAfter choiceAt (i + 1) rest
      (applyResolution ctx (handleConflict (choiceAt i) ctx reg) reg) n

/-- C2: `isConflict` returns `true` exactly when the existing record is
present, the names coincide, and the derived owners (owner field, falling
back to the owner parsed from `sourceUrl`) differ; in every other case —
absent existing record, different names, equal derived owners — it returns
`false`. -/
theorem isConflict_characterization (existing : Option SkillRecord)
    (incoming : SkillRecord) :
    isConflict existing incoming = true ↔
      ∃ e, existing = some e ∧ e.name = incoming.name ∧
        derivedOwner e ≠ derivedOwner incoming := by
  constructor
  · intro h
    match existing with
    | none => simp [isConflict] at h
    | some e =>
      refine ⟨e, rfl, ?_⟩
      by_cases hc : e.name = incoming.name ∧ derivedOwner e ≠ derivedOwner incoming
      · exact hc
      · simp [isConflict, hc] at h
  · rintro ⟨e, rfl, hname, howner⟩
    simp [isConflict, hname, howner]

/-- C10: `parseOwnerRepo` is total (it is a Lean function into pairs, hence
never throws) and follows the documented three-route fallback: empty input
gives empty fields; a parseable URL with at least two non-empty path segments
gives the first segment and the `.git`-stripped second segment; on URL parse
failure the `github.com/owner/repo` pattern match decides; and when both
routes fail the result is a pair of empty strings. -/
theorem parseOwnerRepo_total_routes (s : String) :
    (s = "" → parseOwnerRepo s = ("", "")) ∧
    (∀ u o r rest, tryParseURL s = some u →
      (splitOnChar '/' u.pathname).filter (fun p => p ≠ "") = o :: r :: rest →
      s ≠ "" → parseOwnerRepo s = (o, stripGitSuffix r)) ∧
    (∀ o r, tryParseURL s = none → githubFallbackMatch s.data = some (o, r) →
      s ≠ "" → parseOwnerRepo s = (o, r)) ∧
    (tryParseURL s = none → githubFallbackMatch s.data = none →
      parseOwnerRepo s = ("", "")) := by
  refine ⟨fun h => by simp [parseOwnerRepo, h], ?_, ?_, ?_⟩
  · intro u o r rest hu hsplit hne
    simp only [parseOwnerRepo, if_neg hne, hu, hsplit]
  · intro o r hu hm hne
    simp only [parseOwnerRepo, if_neg hne, hu, hm]
  · intro hu hm
    by_cases h : s = ""
    · simp [parseOwnerRepo, h]
    · simp only [parseOwnerRepo, if_neg h, hu, hm]

/-- Witness for C10: the three interesting routes at concrete inputs — a
well-formed URL with a `.git` suffix, a malformed string rescued by the
pattern fallback, and a string on which both routes fail. -/
theorem parseOwnerRepo_total_routes_witness :
    parseOwnerRepo "https://github.com/acme/tools.git" = ("acme", "tools") ∧
    parseOwnerRepo "github.com/acme/tools" = ("acme", "tools") ∧
    parseOwnerRepo "not a url" = ("", "") := by
  refine ⟨?_, ?_, ?_⟩
  · exact (parseOwnerRepo_total_routes "https://github.com/acme/tools.git").2.1
      ⟨"github.com", "/acme/tools.git"⟩ "acme" "tools.git" [] (by decide) (by decide)
      (by decide)
  · exact (parseOwnerRepo_total_routes "github.com/acme/tools").2.2.1
      "acme" "tools" (by decide) (by decide) (by decide)
  · exact (parseOwnerRepo_total_routes "not a url").2.2.2 (by decide) (by decide)

/-- Replacing-in-place a record by one renamed to the very name it is found
under leaves the registry's name column unchanged. -/
theorem map_name_replaceFirstByName (target : String) (r : SkillRecord)
    (h : r.name = target) :
    ∀ l : List SkillRecord,
      (replaceFirstByName target r l).map SkillRecord.name =
        l.map SkillRecord.name
  | [] => rfl
  | s :: rest => by
    by_cases hs : s.name = target
    · simp [replaceFirstByName, hs, h]
    · simp [replaceFirstByName, hs, map_name_replaceFirstByName target r h rest]

/-- A `rename` outcome can only come from the `keep-both` branch with a
collision-free computed name. -/
theorem handleConflict_rename_inversion (choice : Char) (ctx : ConflictContext)
    (reg : List SkillRecord) (newName orig : String)
    (hres : handleConflict choice ctx reg = .rename newName orig) :
    reg.find? (fun s => decide (s.name = ctx.getRenamedName)) = none ∧
      newName = ctx.getRenamedName := by
  by_cases hs : choice = 's'
  · simp [handleConflict, hs] at hres
  by_cases hr : choice = 'r'
  · simp [handleConflict, hs, hr] at hres
  by_cases hk : choice = 'k'
  · rcases hfind : reg.find? (fun s => decide (s.name = ctx.getRenamedName)) with
      _ | occ
    · simp [handleConflict, hs, hr, hk, hfind] at hres
      exact ⟨hfind, hres.1.symm⟩
    · simp [handleConflict, hs, hr, hk, hfind] at hres
  · simp [handleConflict, hs, hr, hk] at hres

/-- C1: name uniqueness is an invariant of conflict resolution.  For any
registry whose names are pairwise distinct, applying the resolution that
`handleConflict` computes for any context against that same registry (skip:
no mutation; replace: in-place overwrite of the entry carrying the target
name; keep-both: append under the computed name, which the resolver checked
absent immediately before) yields a registry whose names are still pairwise
distinct. -/
theorem conflictResolution_preserves_name_uniqueness (choice : Char)
    (ctx : ConflictContext) (reg : List SkillRecord)
    (h : (reg.map SkillRecord.name).Nodup) :
    ((applyResolution ctx (handleConflict choice ctx reg) reg).map
      SkillRecord.name).Nodup := by
  rcases hres : handleConflict choice ctx reg with _ | ⟨target, warn, orig⟩ |
    ⟨newName, orig⟩
  · simpa [applyResolution] using h
  · simp only [applyResolution]
    rw [map_name_replaceFirstByName target _ rfl]
    exact h
  · obtain ⟨hfind, hname⟩ :=
      handleConflict_rename_inversion choice ctx reg newName orig hres
    have habs : ∀ x ∈ reg, ¬(x.name = newName) := by
      intro x hx
      rw [hname]
      have := List.find?_eq_none.mp hfind x hx
      simpa using this
    simp only [applyResolution, List.map_append, List.map_cons, List.map_nil]
    refine List.Nodup.append h (List.nodup_singleton _) ?_
    intro a ha hb
    simp only [List.mem_singleton] at hb
    subst hb
    rcases List.mem_map.mp ha with ⟨x, hx, hxa⟩
    exact habs x hx hxa

/-- Concrete records and contexts for the witnesses below. -/
def recA : SkillRecord := ⟨"pr-creator", "a", "repo-a", "", "1.0.0", "a", none⟩

def recB : SkillRecord := ⟨"pr-creator", "b", "repo-b", "", "1.0.0", "b", none⟩

def ctxAB : ConflictContext := ⟨recA, recB⟩

/-- Witness for C1: a one-record registry with distinct names stays
name-distinct after a keep-both resolution (which appends `b-pr-creator`). -/
theorem conflictResolution_preserves_name_uniqueness_witness :
    (([recA] : List SkillRecord).map SkillRecord.name).Nodup ∧
    ((applyResolution ctxAB (handleConflict 'k' ctxAB [recA]) [recA]).map
      SkillRecord.name).Nodup :=
  ⟨by decide,
    conflictResolution_preserves_name_uniqueness 'k' ctxAB [recA] (by decide)⟩

/-- Appending to a non-empty string cannot produce the empty string. -/
theorem string_append_ne_empty (s t : String) (h : s.data ≠ []) :
    s ++ t ≠ "" := by
  cases s with
  | mk a =>
    cases t with
    | mk b =>
      intro hc
      have hdata : a ++ b = [] := congrArg String.data hc
      rcases List.append_eq_nil.mp hdata with ⟨ha, _⟩
      exact h (by simpa using ha)

/-- The cascading-replace warning is never the empty string. -/
theorem conflictWarning_ne_empty (a b c d e : String) :
    conflictWarning a b c d e ≠ "" := by
  unfold conflictWarning
  exact string_append_ne_empty _ _ (by decide)

/-- C3: resolving `keep-both` computes the renamed identifier
`<incomingOwner>-<incoming.name>` (owner falling back to the one parsed from
`sourceUrl`); with no registry occupant of that name the outcome is a
`rename` carrying the identifier and the original name, and with an occupant
the outcome is a `replace` targeting the identifier, carrying the original
name and a non-empty warning. -/
theorem handleConflict_keepBoth_spec (ctx : ConflictContext)
    (reg : List SkillRecord) :
    ctx.getRenamedName =
      (if ctx.incoming.owner = "" then (parseOwnerRepo ctx.incoming.sourceUrl).1
        else ctx.incoming.owner) ++ "-" ++ ctx.incoming.name ∧
    (reg.find? (fun s => decide (s.name = ctx.getRenamedName)) = none →
      handleConflict 'k' ctx reg =
        .rename ctx.getRenamedName ctx.incoming.name) ∧
    (∀ occupant,
      reg.find? (fun s => decide (s.name = ctx.getRenamedName)) = some occupant →
      ∃ w, w ≠ "" ∧ handleConflict 'k' ctx reg =
        .replace ctx.getRenamedName (some w) (some ctx.incoming.name)) := by
  refine ⟨rfl, ?_, ?_⟩
  · intro hfind
    simp [handleConflict, hfind]
  · intro occupant hfind
    refine ⟨conflictWarning ctx.getRenamedName (derivedOwner occupant)
      (repoOrName occupant) (derivedOwner ctx.incoming)
      (repoOrName ctx.incoming), ?_, ?_⟩
    · exact conflictWarning_ne_empty _ _ _ _ _
    · simp [handleConflict, hfind]

/-- An incoming `docs-writer` skill owned by `acme`, conflicting with a
same-named skill of another owner. -/
def ctxAcme : ConflictContext :=
  ⟨⟨"docs-writer", "other", "other-repo", "", "1.0.0", "other", none⟩,
    ⟨"docs-writer", "acme", "docs", "", "1.0.0", "acme", none⟩⟩

/-- A registry occupant already holding the computed rename slot. -/
def occAcme : SkillRecord :=
  ⟨"acme-docs-writer", "x", "x-repo", "", "1.0.0", "x", none⟩

/-- Witness for C3: against an empty registry the keep-both choice renames to
`acme-docs-writer`; against a registry already holding that name it replaces
the occupant with a non-empty warning. -/
theorem handleConflict_keepBoth_spec_witness :
    handleConflict 'k' ctxAcme [] =
      .rename "acme-docs-writer" "docs-writer" ∧
    ∃ w, w ≠ "" ∧ handleConflict 'k' ctxAcme [occAcme] =
      .replace "acme-docs-writer" (some w) (some "docs-writer") := by
  have hname : ctxAcme.getRenamedName = "acme-docs-writer" := by decide
  constructor
  · have h := (handleConflict_keepBoth_spec ctxAcme []).2.1 (by decide)
    rw [hname] at h
    exact h
  · have h := (handleConflict_keepBoth_spec ctxAcme [occAcme]).2.2 occAcme
      (by decide)
    rw [hname] at h
    exact h

/-- The batch loop produces one result per queued context. -/
theorem resolveAllGo_length (choiceAt : Nat → Char)
    (queue : List ConflictContext) :
    ∀ (i : Nat) (reg : List SkillRecord),
      (resolveAllGo choiceAt i queue reg).1.length = queue.length := by
  induction queue with
  | nil => intro i reg; rfl
  | cons c rest ih => intro i reg; simp [resolveAllGo, ih]

/-- The `n`-th result of the batch loop is `handleConflict` of the `n`-th
queued context, evaluated against the registry as mutated by the first `n`
resolutions. -/
theorem resolveAllGo_getElem (choiceAt : Nat → Char)
    (queue : List ConflictContext) :
    ∀ (i n : Nat) (reg : List SkillRecord) (ctx : ConflictContext),
      queue[n]? = some ctx →
      (resolveAllGo choiceAt i queue reg).1[n]? =
        some (handleConflict (choiceAt (i + n)) ctx
          (registryAfter choiceAt i queue reg n)) := by
  induction queue with
  | nil => intro i n reg ctx h; simp at h
  | cons c rest ih =>
    intro i n reg ctx h
    cases n with
    | zero =>
      simp only [List.getElem?_cons_zero, Option.some.injEq] at h
      subst h
      simp [resolveAllGo, registryAfter]
    | succ n =>
      simp only [List.getElem?_cons_succ] at h
      have hrec := ih (i + 1) n
        (applyResolution c (handleConflict (choiceAt i) c reg) reg) ctx h
      simp only [resolveAllGo, registryAfter]
      rw [show i + (n + 1) = i + 1 + n from by omega]
      simpa using hrec

/-- Unfolding the registry trace one step: the registry seen after `n + 1`
resolutions is the `n`-th registry mutated by the `n`-th resolution. -/
theorem registryAfter_succ (choiceAt : Nat → Char)
    (queue : List ConflictContext) :
    ∀ (i n : Nat) (reg : List SkillRecord) (ctx : ConflictContext),
      queue[n]? = some ctx →
      registryAfter choiceAt i queue reg (n + 1) =
        applyResolution ctx
          (handleConflict (choiceAt (i + n)) ctx
            (registryAfter choiceAt i queue reg n))
          (registryAfter choiceAt i queue reg n) := by
  induction queue with
  | nil => intro i n reg ctx h; simp at h
  | cons c rest ih =>
    intro i n reg ctx h
    cases n with
    | zero =>
      simp only [List.getElem?_cons_zero, Option.some.injEq] at h
      subst h
      simp [registryAfter]
    | succ n =>
      simp only [List.getElem?_cons_succ] at h
      have hrec := ih (i + 1) n
        (applyResolution c (handleConflict (choiceAt i) c reg) reg) ctx h
      simp only [registryAfter]
      rw [show i + (n + 1) = i + 1 + n from by omega]
      exact hrec

/-- C4: a batch of `k` queued conflicts yields exactly `k` results, one per
context in FIFO order: the `n`-th result is the resolution of the `n`-th
queued context computed against the registry as already mutated by the first
`n` resolutions, and each step's mutation (`applyResolution`) is exactly what
the following step's collision check sees. -/
theorem resolveAll_fifo_and_registry_visibility (choiceAt : Nat → Char)
    (queue : List ConflictContext) (reg : List SkillRecord) :
    (resolveAll choiceAt queue reg).1.length = queue.length ∧
    (∀ n ctx, queue[n]? = some ctx →
      (resolveAll choiceAt queue reg).1[n]? =
        some (handleConflict (choiceAt n) ctx
          (registryAfter choiceAt 0 queue reg n))) ∧
    (∀ n ctx, queue[n]? = some ctx →
      registryAfter choiceAt 0 queue reg (n + 1) =
        applyResolution ctx
          (handleConflict (choiceAt n) ctx (registryAfter choiceAt 0 queue reg n))
          (registryAfter choiceAt 0 queue reg n)) := by
  refine ⟨resolveAllGo_length choiceAt queue 0 reg, ?_, ?_⟩
  · intro n ctx h
    simpa using resolveAllGo_getElem choiceAt queue 0 n reg ctx h
  · intro n ctx h
    simpa using registryAfter_succ choiceAt queue 0 n reg ctx h

/-- Witness for C4: in a two-conflict batch resolved with `keep-both`, the
second result is computed against the registry as mutated by the first
resolution. -/
theorem resolveAll_fifo_and_registry_visibility_witness :
    (resolveAll (fun _ => 'k') [ctxAB, ctxAB] [recA]).1[1]? =
      some (handleConflict 'k' ctxAB
        (registryAfter (fun _ => 'k') 0 [ctxAB, ctxAB] [recA] 1)) :=
  (resolveAll_fifo_and_registry_visibility (fun _ => 'k') [ctxAB, ctxAB]
    [recA]).2.1 1 ctxAB (by decide)

/-! ## Incremental Update Detector (`OutputWriter.checkNeedsUpdate`,
extractors.js lines 281-306) -/

/-- The persisted per-skill subset that `checkNeedsUpdate` compares. -/
structure SkillData where
  description : String
  version : String
  author : String
  sourceUrl : String
  tags : List String
deriving Repr, DecidableEq

/-- Lexicographic comparison of character lists: the default JavaScript
string comparison used by `Array.prototype.sort()` on arrays of strings. -/
def lexLe : List Char → List Char → Bool
  | [], _ => true
  | _ :: _, [] => false
  | a :: as, b :: bs =>
    if a < b then true else if b < a then false else lexLe as bs

/-- Lexicographic string order, as a relation on `String`. -/
def strLe (a b : String) : Prop := lexLe a.data b.data = true

instance strLe.decidableRel : DecidableRel strLe := fun a b =>
  inferInstanceAs (Decidable (lexLe a.data b.data = true))

/-- Relation `lexLe` is total. -/
theorem lexLe_total : ∀ as bs : List Char, lexLe as bs = true ∨ lexLe bs as = true
  | [], _ => Or.inl rfl
  | _ :: _, [] => Or.inr rfl
  | a :: as, b :: bs => by
    rcases lt_trichotomy a b with h | h | h
    · left; simp [lexLe, h]
    · subst h
      rcases lexLe_total as bs with ih | ih
      · left; simp [lexLe, lt_self_iff_false, ih]
      · right; simp [lexLe, lt_self_iff_false, ih]
    · right; simp [lexLe, h]

/-- Relation `lexLe` is transitive. -/
theorem lexLe_trans : ∀ as bs cs : List Char,
    lexLe as bs = true → lexLe bs cs = true → lexLe as cs = true
  | [], _, _, _, _ => rfl
  | _ :: _, [], _, h1, _ => by simp [lexLe] at h1
  | _ :: _, _ :: _, [], _, h2 => by simp [lexLe] at h2
  | a :: as, b :: bs, c :: cs, h1, h2 => by
    simp only [lexLe] at h1 h2 ⊢
    by_cases hab : a < b
    · by_cases hbc : b < c
      · simp [lt_trans hab hbc]
      · by_cases hcb : c < b
        · rw [if_neg hbc, if_pos hcb] at h2; cases h2
        · have hbceq : b = c := le_antisymm (not_lt.mp hcb) (not_lt.mp hbc)
          subst hbceq
          simp [hab]
    · by_cases hba : b < a
      · rw [if_neg hab, if_pos hba] at h1; cases h1
      · have habeq : a = b := le_antisymm (not_lt.mp hba) (not_lt.mp hab)
        subst habeq
        rw [if_neg hab, if_neg hba] at h1
        by_cases hac : a < c
        · simp [hac]
        · by_cases hca : c < a
          · rw [if_neg hac, if_pos hca] at h2; cases h2
          · rw [if_neg hac, if_neg hca] at h2 ⊢
            exact lexLe_trans as bs cs h1 h2

/-- Relation `lexLe` is antisymmetric. -/
theorem lexLe_antisymm : ∀ as bs : List Char,
    lexLe as bs = true → lexLe bs as = true → as = bs
  | [], [], _, _ => rfl
  | [], _ :: _, _, h2 => by simp [lexLe] at h2
  | _ :: _, [], h1, _ => by simp [lexLe] at h1
  | a :: as, b :: bs, h1, h2 => by
    simp only [lexLe] at h1 h2
    by_cases hab : a < b
    · rw [if_neg (lt_asymm hab), if_pos hab] at h2; cases h2
    · by_cases hba : b < a
      · rw [if_neg hab, if_pos hba] at h1; cases h1
      · have habeq : a = b := le_antisymm (not_lt.mp hba) (not_lt.mp hab)
        subst habeq
        rw [if_neg hab, if_neg hba] at h1 h2
        rw [lexLe_antisymm as bs h1 h2]

instance : IsTotal String strLe := ⟨fun a b => lexLe_total a.data b.data⟩

instance : IsTrans String strLe :=
  ⟨fun a b c => lexLe_trans a.data b.data c.data⟩

instance : IsAntisymm String strLe :=
  ⟨fun a b h1 h2 => by
    cases a with
    | mk da =>
      cases b with
      | mk db => exact congrArg String.mk (lexLe_antisymm da db h1 h2)⟩

/-- JavaScript `Array.prototype.sort()` on an array of strings (default
comparator: lexicographic), as a stable insertion sort. -/
def sortStrings (l : List String) : List String :=
  l.insertionSort strLe

/-- The `OutputWriter.checkNeedsUpdate(skillName, newData)`.  The record
persisted under `skillName` (read by `readSkillJson`; `none` models a
missing or unparsable `<name>.json`) is the `existing` argument.  Because
JavaScript's `(newData.tags || []).sort()` sorts the caller's array in
place, the embedding returns the post-call `newData` alongside the returned
`{needsUpdate, reason}` value; the freshly-parsed existing record's own
in-place sort is invisible outside the function and needs no modelling. -/
def checkNeedsUpdate (existing : Option SkillData) (newData : SkillData) :
    (Bool × String) × SkillData :=
  match existing with
  | none => ((true, "新技能"), newData)
  | some e =>
    if e.description ≠ newData.description then
      ((true, "description 变化: " ++ e.description ++ " -> " ++
        newData.description), newData)
    else if e.version ≠ newData.version then
      ((true, "version 变化: " ++ e.version ++ " -> " ++ newData.version),
        newData)
    else if e.author ≠ newData.author then
      ((true, "author 变化: " ++ e.author ++ " -> " ++ newData.author),
        newData)
    else if e.sourceUrl ≠ newData.sourceUrl then
      ((true, "sourceUrl 变化: " ++ e.sourceUrl ++ " -> " ++
        newData.sourceUrl), newData)
    else
      let oldTags := joinWith "," (sortStrings e.tags)
      let sortedNew := sortStrings newData.tags
      let newTags := joinWith "," sortedNew
      let newData2 := { newData with tags := sortedNew }
      if oldTags ≠ newTags then ((true, "tags 变化"), newData2)
      else ((false, "无变化"), newData2)

/-- Sorting strings is canonical: permuted inputs sort to the same list. -/
theorem sortStrings_perm_eq (l l2 : List String) (h : l.Perm l2) :
    sortStrings l = sortStrings l2 :=
  List.eq_of_perm_of_sorted
    ((List.perm_insertionSort _ l).trans
      (h.trans (List.perm_insertionSort _ l2).symm))
    (List.sorted_insertionSort _ l) (List.sorted_insertionSort _ l2)

/-- C5: `checkNeedsUpdate` reports a new skill when no record is persisted;
otherwise it compares `description`, `version`, `author`, `sourceUrl` in
that order for exact inequality, short-circuiting with a reason naming the
first differing field and its old and new values; with all scalars equal the
tags decide, compared order-independently by sorting both sides and joining;
and with nothing differing it reports no change. -/
theorem checkNeedsUpdate_field_comparison (existing : Option SkillData)
    (d : SkillData) :
    (existing = none → (checkNeedsUpdate existing d).1 = (true, "新技能")) ∧
    (∀ e, existing = some e → e.description ≠ d.description →
      (checkNeedsUpdate existing d).1 =
        (true, "description 变化: " ++ e.description ++ " -> " ++
          d.description)) ∧
    (∀ e, existing = some e → e.description = d.description →
      e.version ≠ d.version →
      (checkNeedsUpdate existing d).1 =
        (true, "version 变化: " ++ e.version ++ " -> " ++ d.version)) ∧
    (∀ e, existing = some e → e.description = d.description →
      e.version = d.version → e.author ≠ d.author →
      (checkNeedsUpdate existing d).1 =
        (true, "author 变化: " ++ e.author ++ " -> " ++ d.author)) ∧
    (∀ e, existing = some e → e.description = d.description →
      e.version = d.version → e.author = d.author →
      e.sourceUrl ≠ d.sourceUrl →
      (checkNeedsUpdate existing d).1 =
        (true, "sourceUrl 变化: " ++ e.sourceUrl ++ " -> " ++ d.sourceUrl)) ∧
    (∀ e, existing = some e → e.description = d.description →
      e.version = d.version → e.author = d.author →
      e.sourceUrl = d.sourceUrl →
      (joinWith "," (sortStrings e.tags) ≠ joinWith "," (sortStrings d.tags) →
        (checkNeedsUpdate existing d).1 = (true, "tags 变化")) ∧
      (joinWith "," (sortStrings e.tags) = joinWith "," (sortStrings d.tags) →
        (checkNeedsUpdate existing d).1 = (false, "无变化"))) ∧
    (∀ l, d.tags.Perm l →
      (checkNeedsUpdate existing { d with tags := l }).1 =
        (checkNeedsUpdate existing d).1) := by
  refine ⟨?_, ?_, ?_, ?_, ?_, ?_, ?_⟩
  · rintro rfl; rfl
  · rintro e rfl h1; simp [checkNeedsUpdate, h1]
  · rintro e rfl h1 h2; simp [checkNeedsUpdate, h1, h2]
  · rintro e rfl h1 h2 h3; simp [checkNeedsUpdate, h1, h2, h3]
  · rintro e rfl h1 h2 h3 h4; simp [checkNeedsUpdate, h1, h2, h3, h4]
  · rintro e rfl h1 h2 h3 h4
    constructor
    · intro ht; simp [checkNeedsUpdate, h1, h2, h3, h4, ht]
    · intro ht; simp [checkNeedsUpdate, h1, h2, h3, h4, ht]
  · intro l hperm
    have hsort : sortStrings l = sortStrings d.tags :=
      (sortStrings_perm_eq _ _ hperm).symm
    match existing with
    | none => rfl
    | some e =>
      by_cases h1 : e.description = d.description
      · by_cases h2 : e.version = d.version
        · by_cases h3 : e.author = d.author
          · by_cases h4 : e.sourceUrl = d.sourceUrl
            · simp [checkNeedsUpdate, h1, h2, h3, h4, hsort]
            · simp [checkNeedsUpdate, h1, h2, h3, h4]
          · simp [checkNeedsUpdate, h1, h2, h3]
        · simp [checkNeedsUpdate, h1, h2]
      · simp [checkNeedsUpdate, h1]

/-- Persisted and incoming data for the detector witnesses. -/
def sdOld : SkillData := ⟨"docs helper", "1.0.0", "acme", "u", ["x", "y"]⟩

/-- Same record with a bumped version and permuted tags. -/
def sdNew : SkillData := ⟨"docs helper", "2.0.0", "acme", "u", ["y", "x"]⟩

/-- Witness for C5: a version bump short-circuits with a reason naming the
field, and identical data (up to tag order) reports no change. -/
theorem checkNeedsUpdate_field_comparison_witness :
    (checkNeedsUpdate (some sdOld) sdNew).1 =
      (true, "version 变化: 1.0.0 -> 2.0.0") ∧
    (checkNeedsUpdate (some sdOld) { sdOld with tags := ["y", "x"] }).1 =
      (false, "无变化") := by
  constructor
  · have h := (checkNeedsUpdate_field_comparison (some sdOld) sdNew).2.2.1
      sdOld rfl (by decide) (by decide)
    rw [h]; decide
  · have h := ((checkNeedsUpdate_field_comparison (some sdOld)
      { sdOld with tags := ["y", "x"] }).2.2.2.2.2.1 sdOld rfl (by decide)
      (by decide) (by decide) (by decide)).2 (by decide)
    exact h

/-- Counterexample for C6: when every scalar field matches, the call sorts
the incoming record's tags array in place — the incoming `["b", "a"]`
comes back reordered, so `checkNeedsUpdate` is not free of side effects on
its inputs. -/
theorem checkNeedsUpdate_mutates_incoming_tags :
    (checkNeedsUpdate (some ⟨"d", "1.0.0", "a", "u", ["b", "a"]⟩)
        ⟨"d", "1.0.0", "a", "u", ["b", "a"]⟩).2.tags ≠ ["b", "a"] := by
  decide

/-- C6 (amended): `checkNeedsUpdate` is idempotent as an operation on the
incoming record: a second call on identical inputs (including the tags array
as left by the first call) returns the same result and performs no further
mutation, and the only mutation the first call can make is sorting the
incoming tags array in place. -/
theorem checkNeedsUpdate_result_idempotent (existing : Option SkillData)
    (d : SkillData) :
    (checkNeedsUpdate existing (checkNeedsUpdate existing d).2).1 =
      (checkNeedsUpdate existing d).1 ∧
    (checkNeedsUpdate existing (checkNeedsUpdate existing d).2).2 =
      (checkNeedsUpdate existing d).2 ∧
    ((checkNeedsUpdate existing d).2 = d ∨
      (checkNeedsUpdate existing d).2 = { d with tags := sortStrings d.tags }) := by
  have hsorted : sortStrings (sortStrings d.tags) = sortStrings d.tags :=
    List.Sorted.insertionSort_eq (List.sorted_insertionSort _ _)
  match existing with
  | none => exact ⟨rfl, rfl, Or.inl rfl⟩
  | some e =>
    by_cases h1 : e.description = d.description
    · by_cases h2 : e.version = d.version
      · by_cases h3 : e.author = d.author
        · by_cases h4 : e.sourceUrl = d.sourceUrl
          · by_cases ht : joinWith "," (sortStrings e.tags) =
              joinWith "," (sortStrings d.tags)
            · exact ⟨by simp [checkNeedsUpdate, h1, h2, h3, h4, ht, hsorted],
                by simp [checkNeedsUpdate, h1, h2, h3, h4, ht, hsorted],
                Or.inr (by simp [checkNeedsUpdate, h1, h2, h3, h4, ht])⟩
            · exact ⟨by simp [checkNeedsUpdate, h1, h2, h3, h4, ht, hsorted],
                by simp [checkNeedsUpdate, h1, h2, h3, h4, ht, hsorted],
                Or.inr (by simp [checkNeedsUpdate, h1, h2, h3, h4, ht])⟩
          · exact ⟨by simp [checkNeedsUpdate, h1, h2, h3, h4],
              by simp [checkNeedsUpdate, h1, h2, h3, h4],
              Or.inl (by simp [checkNeedsUpdate, h1, h2, h3, h4])⟩
        · exact ⟨by simp [checkNeedsUpdate, h1, h2, h3],
            by simp [checkNeedsUpdate, h1, h2, h3],
            Or.inl (by simp [checkNeedsUpdate, h1, h2, h3])⟩
      · exact ⟨by simp [checkNeedsUpdate, h1, h2],
          by simp [checkNeedsUpdate, h1, h2],
          Or.inl (by simp [checkNeedsUpdate, h1, h2])⟩
    · exact ⟨by simp [checkNeedsUpdate, h1],
        by simp [checkNeedsUpdate, h1],
        Or.inl (by simp [checkNeedsUpdate, h1])⟩

/-! ## Retry wrapper (`fetchWithRetry`, utils.js lines 15-47) -/

/-- What one `fetch(url, options)` call yields on attempt `i`: a response
(with status and optional already-parsed `Retry-After` header in seconds) or
a network-level exception. -/
inductive NetOutcome where
  | response (status : Nat) (retryAfter : Option Nat)
  | netError (msg : String)
deriving Repr, DecidableEq

/-- How `fetchWithRetry` terminates: a returned response (any non-403/429
status, ok or not), the generic rate-limit error thrown when no attempt ever
threw (`lastError` stayed `undefined`), or a rethrow of the last network
error. -/
inductive RetryResult where
  | ok (status : Nat)
  | rateLimited (advice : String)
  | thrown (msg : String)
deriving Repr, DecidableEq

/-- The message of the generic rate-limit error, advising authentication. -/
def rateLimitAdvice : String :=
  "GitHub API 速率限制，请配置 GITHUB_TOKEN 以提高限额 (60次/小时 -> 5000次/小时)"

/-- The loop of `fetchWithRetry`, with the outcome of the `i`-th attempt
supplied by the oracle `outcomes`.  The `fuel` argument counts the loop
iterations still allowed (`retries - i`); alongside the result the list of
waits (milliseconds slept) is returned: a 403/429 waits `Retry-After`
seconds × 1000 when the header is present, else `delay * 2^i`; a network
error waits the fixed `delay` unless it happened on the final attempt. -/
def fetchWithRetryGo (outcomes : Nat → NetOutcome) (retries delay : Nat) :
    Nat → Nat → Option String → List Nat → RetryResult × List Nat
  | 0, _, lastError, waits =>
    match lastError with
    | none => (.rateLimited rateLimitAdvice, waits)
    | some m => (.thrown m, waits)
  | fuel + 1, i, lastError, waits =>
    match outcomes i with
    | .response status retryAfter =>
      if status = 403 ∨ status = 429 then
        let waitTime :=
          match retryAfter with
          | some ra => ra * 1000
          | none => delay * 2 ^ i
        fetchWithRetryGo outcomes retries delay fuel (i + 1) lastError
          (waits ++ [waitTime])
      else (.ok status, waits)
    | .netError m =>
      let waits2 := if i < retries - 1 then waits ++ [delay] else waits
      fetchWithRetryGo outcomes retries delay fuel (i + 1) (some m) waits2

/-- The `fetchWithRetry(url, options, retries, delay)`: run the loop for
`retries` attempts starting with no recorded error and no waits. -/
def fetchWithRetry (outcomes : Nat → NetOutcome) (retries delay : Nat) :
    RetryResult × List Nat :=
  fetchWithRetryGo outcomes retries delay retries 0 none []

/-- Retry budget and base delay used for GitHub metadata and primary
`SKILL.md` fetches (`fetchWithRetry(url, opts, 3, 1000)` at every call site
in `fetchGithubContent` and `fetchDirectoryContents`). -/
def metadataRetryBudget : Nat × Nat := (3, 1000)

/-- Retry budget and base delay used for individual file downloads
(`fetchWithRetry(item.download_url, opts, 2, 500)`). -/
def fileRetryBudget : Nat × Nat := (2, 500)

/-- The wait recorded for a rate-limited attempt. -/
def rateLimitWait (delay : Nat) (retryAfter : Option Nat) (i : Nat) : Nat :=
  match retryAfter with
  | some ra => ra * 1000
  | none => delay * 2 ^ i

/-- Trace of the loop when every attempt in the window is a 403/429
response: the loop sleeps the computed wait each time and ends with
`lastError` untouched. -/
theorem fetchWithRetryGo_all_rate_limited (outcomes : Nat → NetOutcome)
    (retries delay : Nat) :
    ∀ (fuel i : Nat) (lastError : Option String) (waits : List Nat),
      (∀ j, j < fuel → ∃ s ra, outcomes (i + j) = .response s ra ∧
        (s = 403 ∨ s = 429)) →
      fetchWithRetryGo outcomes retries delay fuel i lastError waits =
        (match lastError with
          | none => (.rateLimited rateLimitAdvice,
              waits ++ (List.range fuel).map (fun j =>
                rateLimitWait delay
                  (match outcomes (i + j) with
                    | .response _ ra => ra
                    | .netError _ => none) (i + j)))
          | some m => (.thrown m,
              waits ++ (List.range fuel).map (fun j =>
                rateLimitWait delay
                  (match outcomes (i + j) with
                    | .response _ ra => ra
                    | .netError _ => none) (i + j)))) := by
  intro fuel
  induction fuel with
  | zero =>
    intro i lastError waits _
    match lastError with
    | none => simp [fetchWithRetryGo]
    | some m => simp [fetchWithRetryGo]
  | succ fuel ih =>
    intro i lastError waits hall
    obtain ⟨s, ra, hout, hs⟩ := hall 0 (Nat.succ_pos fuel)
    rw [Nat.add_zero] at hout
    have hrest : ∀ j, j < fuel → ∃ s2 ra2,
        outcomes (i + 1 + j) = .response s2 ra2 ∧ (s2 = 403 ∨ s2 = 429) := by
      intro j hj
      have := hall (j + 1) (by omega)
      rwa [show i + (j + 1) = i + 1 + j from by omega] at this
    have hrange : (List.range (fuel + 1)).map (fun j =>
        rateLimitWait delay
          (match outcomes (i + j) with
            | .response _ ra2 => ra2
            | .netError _ => none) (i + j)) =
        rateLimitWait delay ra i ::
          (List.range fuel).map (fun j =>
            rateLimitWait delay
              (match outcomes (i + 1 + j) with
                | .response _ ra2 => ra2
                | .netError _ => none) (i + 1 + j)) := by
      rw [List.range_succ_eq_map, List.map_cons, List.map_map]
      refine congrArg₂ _ ?_ ?_
      · rw [Nat.add_zero, hout]
      · refine List.map_congr_left ?_
        intro j _
        simp only [Function.comp]
        rw [show i + (j + 1) = i + 1 + j from by omega]
    simp only [fetchWithRetryGo, hout, if_pos hs]
    rw [ih (i + 1) lastError _ hrest]
    match lastError with
    | none =>
      rw [hrange]
      simp [rateLimitWait, List.append_assoc]
    | some m =>
      rw [hrange]
      simp [rateLimitWait, List.append_assoc]

/-- Trace of the loop when every attempt in the window is a network error:
each non-final attempt sleeps the fixed base delay, `lastError` tracks the
most recent message, and exhaustion rethrows it. -/
theorem fetchWithRetryGo_all_net_error (outcomes : Nat → NetOutcome)
    (retries delay : Nat) :
    ∀ (fuel i : Nat) (lastError : Option String) (waits : List Nat)
      (msgs : Nat → String),
      (∀ j, j < fuel → outcomes (i + j) = .netError (msgs (i + j))) →
      fuel + i = retries → 0 < fuel →
      fetchWithRetryGo outcomes retries delay fuel i lastError waits =
        (.thrown (msgs (retries - 1)),
          waits ++ List.replicate (fuel - 1) delay) := by
  intro fuel
  induction fuel with
  | zero => intro _ _ _ _ _ _ hpos; omega
  | succ fuel ih =>
    intro i lastError waits msgs hall htot _
    have hout := hall 0 (Nat.succ_pos fuel)
    rw [Nat.add_zero] at hout
    simp only [fetchWithRetryGo, hout]
    rcases Nat.eq_zero_or_pos fuel with hf0 | hfpos
    · subst hf0
      have hi : i = retries - 1 := by omega
      have hnot : ¬ i < retries - 1 := by omega
      rw [if_neg hnot]
      simp [fetchWithRetryGo, hi]
    · have hlt : i < retries - 1 := by omega
      have hrest : ∀ j, j < fuel →
          outcomes (i + 1 + j) = .netError (msgs (i + 1 + j)) := by
        intro j hj
        have := hall (j + 1) (by omega)
        rwa [show i + (j + 1) = i + 1 + j from by omega] at this
      rw [if_pos hlt, ih (i + 1) (some (msgs i)) _ msgs hrest (by omega) hfpos]
      rw [show fuel + 1 - 1 = (fuel - 1) + 1 from by omega,
        List.replicate_succ]
      simp [List.append_assoc]

/-- C7: the retry wrapper's budgets are 3 attempts (base delay 1000 ms) for
metadata/primary fetches and 2 attempts (base delay 500 ms) for individual
file fetches; a 403/429 attempt waits `Retry-After × 1000` ms when the
header is present and `delay × 2^attempt` otherwise; when every attempt
within the budget is rate-limited the wrapper raises the generic rate-limit
error advising stronger authentication (never returning a response), having
slept the computed wait after each attempt; and when every attempt fails at
the network level each non-final attempt waits the fixed base delay and the
last error is rethrown. -/
theorem fetchWithRetry_backoff_and_exhaustion (outcomes : Nat → NetOutcome)
    (retries delay : Nat) :
    metadataRetryBudget = (3, 1000) ∧
    fileRetryBudget = (2, 500) ∧
    ((∀ j, j < retries → ∃ s ra, outcomes j = .response s ra ∧
        (s = 403 ∨ s = 429)) →
      fetchWithRetry outcomes retries delay =
        (.rateLimited rateLimitAdvice,
          (List.range retries).map (fun j =>
            rateLimitWait delay
              (match outcomes j with
                | .response _ ra => ra
                | .netError _ => none) j))) ∧
    (∀ msgs : Nat → String,
      (∀ j, j < retries → outcomes j = .netError (msgs j)) → 0 < retries →
      fetchWithRetry outcomes retries delay =
        (.thrown (msgs (retries - 1)), List.replicate (retries - 1) delay)) := by
  refine ⟨rfl, rfl, ?_, ?_⟩
  · intro hall
    have h := fetchWithRetryGo_all_rate_limited outcomes retries delay retries
      0 none [] (by intro j hj; simpa using hall j hj)
    simpa [fetchWithRetry] using h
  · intro msgs hall hpos
    have h := fetchWithRetryGo_all_net_error outcomes retries delay retries 0
      none [] msgs (by intro j hj; simpa using hall j hj) (by omega) hpos
    simpa [fetchWithRetry] using h

/-- An oracle that is rate-limited on every attempt, with a `Retry-After`
header only on the second. -/
def rlOutcomes : Nat → NetOutcome
  | 1 => .response 429 (some 7)
  | _ => .response 403 none

/-- Witness for C7: three rate-limited attempts (the metadata budget) wait
1000·2⁰, then the server-supplied 7 s, then 1000·2² ms, and end in the
generic advice error; two network failures (the file budget) wait the fixed
500 ms once and rethrow the last message. -/
theorem fetchWithRetry_backoff_and_exhaustion_witness :
    fetchWithRetry rlOutcomes 3 1000 =
      (.rateLimited rateLimitAdvice, [1000, 7000, 4000]) ∧
    fetchWithRetry (fun _ => .netError "fetch failed") 2 500 =
      (.thrown "fetch failed", [500]) := by
  constructor
  · have hall : ∀ j, j < 3 → ∃ s ra, rlOutcomes j = .response s ra ∧
        (s = 403 ∨ s = 429) := by
      intro j hj
      interval_cases j
      · exact ⟨403, none, rfl, Or.inl rfl⟩
      · exact ⟨429, some 7, rfl, Or.inr rfl⟩
      · exact ⟨403, none, rfl, Or.inl rfl⟩
    have h := (fetchWithRetry_backoff_and_exhaustion rlOutcomes 3 1000).2.2.1
      hall
    rw [h]; decide
  · have h := (fetchWithRetry_backoff_and_exhaustion
      (fun _ => .netError "fetch failed") 2 500).2.2.2 (fun _ => "fetch failed")
      (fun _ _ => rfl) (by decide)
    rw [h]; decide

/-! ## Remote Content Fetcher (`fetchGithubContent` /
`fetchDirectoryContents`, utils.js lines 110-404) -/

/-- JavaScript `s.startsWith(pre)`. -/
def startsWithStr (pre s : String) : Bool :=
  decide (s.data.take pre.data.length = pre.data)

/-- JavaScript `s.endsWith(suf)`. -/
def endsWithStr (suf s : String) : Bool :=
  decide (s.data.reverse.take suf.data.length = suf.data.reverse)

/-- JavaScript `s.substring(n)`: drop the first `n` characters. -/
def dropLeftChars (n : Nat) (s : String) : String :=
  String.mk (s.data.drop n)

/-- JavaScript `s.slice(0, -n)`: drop the last `n` characters. -/
def dropRightChars (n : Nat) (s : String) : String :=
  String.mk ((s.data.reverse.drop n).reverse)

/-- The `item.path.substring(0, item.path.lastIndexOf('/'))`: the directory part
of a path (empty when the path has no slash). -/
def dirnameOf (path : String) : String :=
  match path.data.reverse.dropWhile (fun c => c ≠ '/') with
  | [] => ""
  | _ :: tl => String.mk tl.reverse

/-- The repository coordinates `parseGithubUrl` extracts from a source URL. -/
structure RepoInfo where
  owner : String
  repo : String
  branch : String
  path : String
deriving Repr, DecidableEq

/-- The `parseGithubUrl(url)` from utils.js: owner and repo from the first two
non-empty path segments (fewer than two → `null`), branch and subpath from a
`/tree/<branch>/...` or `/blob/<branch>/...` tail (default branch `main`,
empty subpath), with a trailing `SKILL.md` or `/SKILL.md` stripped from the
subpath. -/
def parseGithubUrl (url : String) : Option RepoInfo :=
  match tryParseURL url with
  | none => none
  | some u =>
    match (splitOnChar '/' u.pathname).filter (fun p => p ≠ "") with
    | owner :: repo :: rest =>
      match rest with
      | kind :: branch :: pathParts =>
        if kind = "tree" ∨ kind = "blob" then
          let path := joinWith "/" pathParts
          let path2 :=
            if endsWithStr "/SKILL.md" path then dropRightChars 9 path
            else if endsWithStr "SKILL.md" path then dropRightChars 8 path
            else path
          some ⟨owner, repo, branch, path2⟩
        else some ⟨owner, repo, "main", ""⟩
      | _ => some ⟨owner, repo, "main", ""⟩
    | _ => none

/-- Entry types of the GitHub contents API. -/
inductive GItemType where
  | file
  | dir
  | symlink
deriving Repr, DecidableEq

/-- One entry of a directory listing: `name`, `path`, `type`,
`download_url`. -/
structure GItem where
  name : String
  path : String
  itemType : GItemType
  download_url : String
deriving Repr, DecidableEq

/-- The remote side, for the fixed owner/repo of one fetch, seen as oracles:
`raw branch path` is the raw-content fetch, `listing dirPath branch` the
contents-API listing (`?ref=branch`), and `download url` a fetch of an
entry's `download_url`.  `none` uniformly models a non-ok response, a
non-array listing body, or an exception (including one thrown after
exhausting retries). -/
structure GithubState where
  raw : String → String → Option String
  listing : String → String → Option (List GItem)
  download : String → Option String

/-- The symlink-target path computation duplicated verbatim in
`fetchGithubContent` and `fetchDirectoryContents`: `/`-prefixed targets are
repo-root-relative (leading slash stripped), `./`-prefixed are
current-dir-relative, `../`-prefixed walk up from the current directory
collapsing `..` segments (pop one per `..`, skip `.` and empty), and bare
targets are current-dir-relative. -/
def resolveSymlinkTarget (currentDir targetPath : String) : String :=
  if startsWithStr "/" targetPath then dropLeftChars 1 targetPath
  else if startsWithStr "./" targetPath then
    currentDir ++ "/" ++ dropLeftChars 2 targetPath
  else if startsWithStr "../" targetPath then
    joinWith "/" ((splitOnChar '/' targetPath).foldl (fun acc part =>
      if part = ".." then acc.dropLast
      else if part = "." ∨ part = "" then acc
      else acc ++ [part]) (splitOnChar '/' currentDir))
  else currentDir ++ "/" ++ targetPath

/-- The symlink branch shared by both fetchers: read the link file itself
(its text is the target path), trim and resolve it against the link's
directory, try the resolved path as a directory first (via the supplied
recursive fetch) and, when that yields nothing, as a single raw file keyed
by `fileKey`. -/
def symlinkFetch (st : GithubState)
    (fetchDir : String → String → String → List (String × String))
    (branch fileKey itemPath downloadUrl : String) : List (String × String) :=
  match st.download downloadUrl with
  | none => []
  | some targetRaw =>
    let resolvedPath :=
      resolveSymlinkTarget (dirnameOf itemPath) (trimString targetRaw)
    let subFiles := fetchDir resolvedPath branch fileKey
    if subFiles.length > 0 then subFiles
    else
      match st.raw branch resolvedPath with
      | some content => [(fileKey, content)]
      | none => []

/-- The entry loop of `fetchDirectoryContents`: files are downloaded (a
failure contributes nothing), subdirectories recurse through `fetchDir`
under `basePath/name`, symlinks go through `symlinkFetch`. -/
def dirItemsLoop (st : GithubState)
    (fetchDir : String → String → String → List (String × String))
    (branch basePath : String) : List GItem → List (String × String)
  | [] => []
  | item :: rest =>
    (match item.itemType with
      | .file =>
        match st.download item.download_url with
        | some content => [(basePath ++ "/" ++ item.name, content)]
        | none => []
      | .dir => fetchDir item.path branch (basePath ++ "/" ++ item.name)
      | .symlink =>
        symlinkFetch st fetchDir branch (basePath ++ "/" ++ item.name)
          item.path item.download_url) ++
      dirItemsLoop st fetchDir branch basePath rest

/-- The `fetchDirectoryContents(owner, repo, dirPath, branch, basePath)`: list
the directory (any failure yields `[]`) and accumulate entries.  `fuel`
bounds the recursion depth, which the JavaScript leaves unbounded; the
claims below hold for every fuel value. -/
def fetchDirectoryContents (st : GithubState) :
    Nat → String → String → String → List (String × String)
  | 0, _, _, _ => []
  | fuel + 1, dirPath, branch, basePath =>
    match st.listing dirPath branch with
    | none => []
    | some items =>
      dirItemsLoop st (fetchDirectoryContents st fuel) branch basePath items

/-- The top-level entry loop of `fetchGithubContent` (the `Promise.all`
callbacks, in listing order): a plain file named (case-insensitively)
`skill.md` is skipped, other files are downloaded under their bare name,
subdirectories and symlinks recurse with `basePath = item.name`. -/
def topItemsLoop (st : GithubState) (fuel : Nat) (branch : String) :
    List GItem → List (String × String)
  | [] => []
  | item :: rest =>
    (match item.itemType with
      | .file =>
        if lowerString item.name = "skill.md" then []
        else
          match st.download item.download_url with
          | some content => [(item.name, content)]
          | none => []
      | .dir => fetchDirectoryContents st fuel item.path branch item.name
      | .symlink =>
        symlinkFetch st (fetchDirectoryContents st fuel) branch item.name
          item.path item.download_url) ++
      topItemsLoop st fuel branch rest

/-- The `Map.prototype.set`: replace in place when the key exists, else append. -/
def mapSet (m : List (String × String)) (k v : String) :
    List (String × String) :=
  if m.any (fun p => decide (p.1 = k)) then
    m.map (fun p => if p.1 = k then (k, v) else p)
  else m ++ [(k, v)]

/-- The merge loop filling the `files` map from the per-entry results. -/
def buildFilesMap (pairs : List (String × String)) : List (String × String) :=
  pairs.foldl (fun m p => mapSet m p.1 p.2) []

/-- The inner loop of the `SKILL.md` search: try each candidate path on one
branch; first ok response wins. -/
def tryPaths (st : GithubState) (b : String) : List String → Option String
  | [] => none
  | p :: ps =>
    match st.raw b p with
    | some content => some content
    | none => tryPaths st b ps

/-- The outer loop of the `SKILL.md` search: first branch that yields the
document wins; returns the found branch and the document. -/
def findSkillMd (st : GithubState) (pathsToTry : List String) :
    List String → Option (String × String)
  | [] => none
  | b :: bs =>
    match tryPaths st b pathsToTry with
    | some content => some (b, content)
    | none => findSkillMd st pathsToTry bs

/-- The ordered branch candidates: the explicitly resolved branch first when
it is set and non-default, then the two conventional defaults. -/
def branchCandidates (info : RepoInfo) : List String :=
  if info.branch ≠ "" ∧ info.branch ≠ "main" ∧ info.branch ≠ "master" then
    [info.branch, "main", "master"]
  else ["main", "master"]

/-- The candidate document path (`pathsToTry` is always this singleton). -/
def skillMdPath (info : RepoInfo) : String :=
  if info.path ≠ "" then info.path ++ "/SKILL.md" else "SKILL.md"

/-- The `fetchGithubContent(features)` against the network oracle: parse the
source URL (`null` → `null`), search the branch candidates for `SKILL.md`
(total failure → `null`), then — when the skill lives in a subdirectory —
list that directory and fetch every other entry, swallowing individual
failures, merging results into the files map. -/
def fetchGithubContent (st : GithubState) (fuel : Nat) (sourceUrl : String) :
    Option (String × List (String × String)) :=
  match parseGithubUrl sourceUrl with
  | none => none
  | some info =>
    match findSkillMd st [skillMdPath info] (branchCandidates info) with
    | none => none
    | some (foundBranch, skillMd) =>
      let files :=
        if info.path ≠ "" then
          match st.listing info.path foundBranch with
          | some items =>
            buildFilesMap (topItemsLoop st fuel foundBranch items)
          | none => []
        else []
      some (skillMd, files)

/-- What a plain top-level file entry contributes to the files map:
nothing when it is `skill.md` (case-insensitive) or its download fails,
its content under its bare name otherwise; non-file entries contribute
nothing through this function. -/
def topFileContribution (st : GithubState) (item : GItem) :
    Option (String × String) :=
  match item.itemType with
  | .file =>
    if lowerString item.name = "skill.md" then none
    else (st.download item.download_url).map (fun c => (item.name, c))
  | _ => none

/-- The path loop fails exactly when every candidate path fails. -/
theorem tryPaths_eq_none_iff (st : GithubState) (b : String)
    (ps : List String) :
    tryPaths st b ps = none ↔ ∀ p ∈ ps, st.raw b p = none := by
  induction ps with
  | nil => simp [tryPaths]
  | cons p ps ih =>
    rcases hr : st.raw b p with _ | c
    · simp [tryPaths, hr, ih]
    · simp [tryPaths, hr]

/-- The branch loop fails exactly when every branch/path combination
fails. -/
theorem findSkillMd_eq_none_iff (st : GithubState) (paths : List String)
    (bs : List String) :
    findSkillMd st paths bs = none ↔
      ∀ b ∈ bs, ∀ p ∈ paths, st.raw b p = none := by
  induction bs with
  | nil => simp [findSkillMd]
  | cons b bs ih =>
    rcases ht : tryPaths st b paths with _ | c
    · simp only [findSkillMd, ht]
      rw [ih]
      constructor
      · intro h b2 hb2
        rcases List.mem_cons.mp hb2 with rfl | hb2
        · exact (tryPaths_eq_none_iff st b2 paths).mp ht
        · exact h b2 hb2
      · intro h b2 hb2
        exact h b2 (List.mem_cons_of_mem _ hb2)
    · simp only [findSkillMd, ht]
      constructor
      · intro h; cases h
      · intro h
        have := (tryPaths_eq_none_iff st b paths).mpr
          (h b (List.mem_cons_self b bs))
        rw [this] at ht
        cases ht

/-- A directory whose listing fails contributes nothing, for any fuel. -/
theorem fetchDirectoryContents_listing_none (st : GithubState) (fuel : Nat)
    (dirPath branch basePath : String)
    (h : st.listing dirPath branch = none) :
    fetchDirectoryContents st fuel dirPath branch basePath = [] := by
  cases fuel with
  | zero => rfl
  | succ n => simp [fetchDirectoryContents, h]

/-- A successful top-level file contribution is keyed by the item's name. -/
theorem topFileContribution_fst (st : GithubState) (item : GItem)
    (pr : String × String) (h : topFileContribution st item = some pr) :
    pr.1 = item.name := by
  cases hty : item.itemType
  · simp only [topFileContribution, hty] at h
    by_cases hskip : lowerString item.name = "skill.md"
    · simp [hskip] at h
    · rw [if_neg hskip] at h
      rcases hd : st.download item.download_url with _ | c
      · rw [hd] at h; simp at h
      · rw [hd] at h
        have h2 : (item.name, c) = pr := Option.some.inj h
        rw [← h2]
  · simp [topFileContribution, hty] at h
  · simp [topFileContribution, hty] at h

/-- When every listed entry is a plain file or a directory whose own listing
fails, the top-level loop yields exactly the per-file contributions, in
listing order. -/
theorem topItemsLoop_all_files (st : GithubState) (fuel : Nat)
    (branch : String) (items : List GItem)
    (hall : ∀ item ∈ items, item.itemType = .file ∨
      (item.itemType = .dir ∧ st.listing item.path branch = none)) :
    topItemsLoop st fuel branch items =
      items.filterMap (topFileContribution st) := by
  induction items with
  | nil => rfl
  | cons item rest ih =>
    have hrest := fun it hit => hall it (List.mem_cons_of_mem _ hit)
    rcases hall item (List.mem_cons_self item rest) with hfile | ⟨hdir, hnone⟩
    · simp only [topItemsLoop, List.filterMap_cons, topFileContribution,
        hfile, ih hrest]
      by_cases hskip : lowerString item.name = "skill.md"
      · simp [hskip]
      · rcases hd : st.download item.download_url with _ | c
        · simp [hskip, hd]
        · simp [hskip, hd]
    · have hcontrib : topFileContribution st item = none := by
        simp [topFileContribution, hdir]
      simp only [topItemsLoop, List.filterMap_cons, hdir, hcontrib, ih hrest,
        fetchDirectoryContents_listing_none st fuel item.path branch
          item.name hnone]
      simp

/-- Keys of the per-file contributions are item names. -/
theorem filterMap_topFile_keys_sub (st : GithubState) :
    ∀ (items : List GItem) (k : String),
      k ∈ (items.filterMap (topFileContribution st)).map Prod.fst →
      k ∈ items.map GItem.name := by
  intro items
  induction items with
  | nil => intro k h; simp at h
  | cons item rest ih =>
    intro k h
    rcases hf : topFileContribution st item with _ | pr
    · rw [List.filterMap_cons, hf] at h
      rw [List.map_cons]
      exact List.mem_cons_of_mem _ (ih k h)
    · rw [List.filterMap_cons, hf, List.map_cons] at h
      rw [List.map_cons]
      rcases List.mem_cons.mp h with rfl | h
      · exact List.mem_cons.mpr
          (Or.inl (topFileContribution_fst st item pr hf))
      · exact List.mem_cons_of_mem _ (ih k h)

/-- Distinct item names give distinct contribution keys. -/
theorem filterMap_topFile_keys_nodup (st : GithubState) (items : List GItem)
    (h : (items.map GItem.name).Nodup) :
    ((items.filterMap (topFileContribution st)).map Prod.fst).Nodup := by
  induction items with
  | nil => simp
  | cons item rest ih =>
    rw [List.map_cons, List.nodup_cons] at h
    rcases hf : topFileContribution st item with _ | pr
    · rw [List.filterMap_cons, hf]
      exact ih h.2
    · rw [List.filterMap_cons, hf, List.map_cons, List.nodup_cons]
      refine ⟨?_, ih h.2⟩
      intro hmem
      have hsub := filterMap_topFile_keys_sub st rest pr.1 hmem
      rw [topFileContribution_fst st item pr hf] at hsub
      exact h.1 hsub

/-- Folding `Map.set` over pairs with fresh, pairwise-distinct keys is plain
concatenation. -/
theorem foldl_mapSet_append :
    ∀ (pairs m : List (String × String)),
      (∀ p ∈ pairs, ∀ q ∈ m, q.1 ≠ p.1) →
      (pairs.map Prod.fst).Nodup →
      pairs.foldl (fun acc p => mapSet acc p.1 p.2) m = m ++ pairs := by
  intro pairs
  induction pairs with
  | nil => intro m _ _; simp
  | cons p rest ih =>
    intro m hdisj hnodup
    rw [List.foldl_cons]
    have hnotin : m.any (fun q => decide (q.1 = p.1)) = false := by
      rw [List.any_eq_false]
      intro q hq
      simpa using hdisj p (List.mem_cons_self p rest) q hq
    have hset : mapSet m p.1 p.2 = m ++ [p] := by
      unfold mapSet
      rw [hnotin]
      simp
    rw [hset]
    rw [List.map_cons, List.nodup_cons] at hnodup
    rw [ih (m ++ [p]) ?_ hnodup.2]
    · simp
    · intro r hr q hq
      rcases List.mem_append.mp hq with hq | hq
      · exact hdisj r (List.mem_cons_of_mem _ hr) q hq
      · simp only [List.mem_singleton] at hq
        subst hq
        intro hEq
        exact hnodup.1 (hEq ▸ List.mem_map_of_mem Prod.fst hr)

/-- Building the files map from pairs with distinct keys keeps them as-is. -/
theorem buildFilesMap_nodup_eq (pairs : List (String × String))
    (h : (pairs.map Prod.fst).Nodup) : buildFilesMap pairs = pairs := by
  unfold buildFilesMap
  have := foldl_mapSet_append pairs [] (by intro p _ q hq; simp at hq) h
  simpa using this

/-- C8: once `SKILL.md` is found on some tried branch, the overall fetch is
non-null, whatever the auxiliary fetches do; the fetch is null only when the
URL does not parse or no branch/path combination yields the document; and
over a directory of plain files (plus directories whose own listings fail),
the returned files are exactly the successful downloads — failing entries
are simply absent while their siblings and the primary document are
returned. -/
theorem fetchGithubContent_partial_failure (st : GithubState) (fuel : Nat)
    (src : String) :
    (∀ info b, parseGithubUrl src = some info → b ∈ branchCandidates info →
      (st.raw b (skillMdPath info)).isSome = true →
      (fetchGithubContent st fuel src).isSome = true) ∧
    (fetchGithubContent st fuel src = none →
      parseGithubUrl src = none ∨
        ∃ info, parseGithubUrl src = some info ∧
          ∀ b ∈ branchCandidates info, st.raw b (skillMdPath info) = none) ∧
    (∀ info b₀ md items, parseGithubUrl src = some info → info.path ≠ "" →
      findSkillMd st [skillMdPath info] (branchCandidates info) =
        some (b₀, md) →
      st.listing info.path b₀ = some items →
      (items.map GItem.name).Nodup →
      (∀ item ∈ items, item.itemType = .file ∨
        (item.itemType = .dir ∧ st.listing item.path b₀ = none)) →
      fetchGithubContent st fuel src =
        some (md, items.filterMap (topFileContribution st))) := by
  refine ⟨?_, ?_, ?_⟩
  · intro info b hparse hb hraw
    rcases hfind : findSkillMd st [skillMdPath info] (branchCandidates info)
      with _ | ⟨b₀, md⟩
    · exfalso
      have := (findSkillMd_eq_none_iff st [skillMdPath info]
        (branchCandidates info)).mp hfind b hb (skillMdPath info) (by simp)
      rw [this] at hraw
      simp at hraw
    · simp [fetchGithubContent, hparse, hfind]
  · intro hnone
    rcases hparse : parseGithubUrl src with _ | info
    · exact Or.inl rfl
    · right
      refine ⟨info, rfl, ?_⟩
      rcases hfind : findSkillMd st [skillMdPath info] (branchCandidates info)
        with _ | ⟨b₀, md⟩
      · intro b hb
        exact (findSkillMd_eq_none_iff st [skillMdPath info]
          (branchCandidates info)).mp hfind b hb (skillMdPath info) (by simp)
      · exfalso
        simp [fetchGithubContent, hparse, hfind] at hnone
  · intro info b₀ md items hparse hpath hfind hlist hnodup hall
    simp only [fetchGithubContent, hparse, hfind, if_pos hpath, hlist]
    rw [topItemsLoop_all_files st fuel b₀ items hall,
      buildFilesMap_nodup_eq _ (filterMap_topFile_keys_nodup st items hnodup)]

/-- Five sibling files of which two fail to download. -/
def itemsW : List GItem :=
  [⟨"a.md", "skills/pr/a.md", .file, "ua"⟩,
    ⟨"b.md", "skills/pr/b.md", .file, "ub"⟩,
    ⟨"c.md", "skills/pr/c.md", .file, "uc"⟩,
    ⟨"d.md", "skills/pr/d.md", .file, "ud"⟩,
    ⟨"e.md", "skills/pr/e.md", .file, "ue"⟩]

/-- A remote state holding `SKILL.md` under `skills/pr` on `main`, where the
downloads of `b.md` and `d.md` fail. -/
def st8 : GithubState where
  raw := fun b p =>
    if b = "main" ∧ p = "skills/pr/SKILL.md" then some "# the skill" else none
  listing := fun d b =>
    if d = "skills/pr" ∧ b = "main" then some itemsW else none
  download := fun u =>
    if u = "ua" then some "A"
    else if u = "uc" then some "C"
    else if u = "ue" then some "E"
    else none

/-- Witness for C8: with 2 of 5 sibling downloads failing, the fetch is
non-null and returns the primary document plus exactly the 3 successes. -/
theorem fetchGithubContent_partial_failure_witness :
    fetchGithubContent st8 1 "https://github.com/o/r/tree/main/skills/pr" =
      some ("# the skill", [("a.md", "A"), ("c.md", "C"), ("e.md", "E")]) := by
  have h := (fetchGithubContent_partial_failure st8 1
      "https://github.com/o/r/tree/main/skills/pr").2.2
    ⟨"o", "r", "main", "skills/pr"⟩ "main" "# the skill" itemsW
    (by decide) (by decide) (by decide) (by decide) (by decide) (by decide)
  rw [h]
  decide

/-- Spec-side description of the `../` rule, by direct recursion on the
target's segments: pop one directory per `..`, skip `.` and empty segments,
descend into everything else. -/
def walkUpSpec : List String → List String → List String
  | acc, [] => acc
  | acc, seg :: rest =>
    if seg = ".." then walkUpSpec acc.dropLast rest
    else if seg = "." ∨ seg = "" then walkUpSpec acc rest
    else walkUpSpec (acc ++ [seg]) rest

/-- The source's fold over target segments computes `walkUpSpec`. -/
theorem foldl_collapse_eq_walkUpSpec :
    ∀ (parts acc : List String),
      parts.foldl (fun acc part =>
        if part = ".." then acc.dropLast
        else if part = "." ∨ part = "" then acc
        else acc ++ [part]) acc = walkUpSpec acc parts := by
  intro parts
  induction parts with
  | nil => intro acc; rfl
  | cons seg rest ih =>
    intro acc
    rw [List.foldl_cons]
    by_cases h1 : seg = ".."
    · simp [walkUpSpec, h1, ih]
    · by_cases h2 : seg = "." ∨ seg = ""
      · simp [walkUpSpec, h1, h2, ih]
      · simp [walkUpSpec, h1, h2, ih]

/-- C9: symlink-target resolution is a pure path computation following the
four POSIX-style prefix rules — `/` strips the leading slash and is
repo-root-relative, `./` is current-dir-relative, `../` walks up from the
current directory with `..`-collapsing (per `walkUpSpec`), anything else is
current-dir-relative — and the resolved path is then tried first as a
directory, falling back to a single raw file only when the directory
attempt yields nothing. -/
theorem symlinkTarget_resolution_spec (currentDir target : String) :
    (startsWithStr "/" target = true →
      resolveSymlinkTarget currentDir target = dropLeftChars 1 target) ∧
    (startsWithStr "/" target = false → startsWithStr "./" target = true →
      resolveSymlinkTarget currentDir target =
        currentDir ++ "/" ++ dropLeftChars 2 target) ∧
    (startsWithStr "/" target = false → startsWithStr "./" target = false →
      startsWithStr "../" target = true →
      resolveSymlinkTarget currentDir target =
        joinWith "/" (walkUpSpec (splitOnChar '/' currentDir)
          (splitOnChar '/' target))) ∧
    (startsWithStr "/" target = false → startsWithStr "./" target = false →
      startsWithStr "../" target = false →
      resolveSymlinkTarget currentDir target = currentDir ++ "/" ++ target) ∧
    (∀ (st : GithubState)
      (fetchDir : String → String → String → List (String × String))
      (branch fileKey itemPath downloadUrl targetRaw : String),
      st.download downloadUrl = some targetRaw →
      (fetchDir (resolveSymlinkTarget (dirnameOf itemPath)
          (trimString targetRaw)) branch fileKey ≠ [] →
        symlinkFetch st fetchDir branch fileKey itemPath downloadUrl =
          fetchDir (resolveSymlinkTarget (dirnameOf itemPath)
            (trimString targetRaw)) branch fileKey) ∧
      (fetchDir (resolveSymlinkTarget (dirnameOf itemPath)
          (trimString targetRaw)) branch fileKey = [] →
        symlinkFetch st fetchDir branch fileKey itemPath downloadUrl =
          (match st.raw branch (resolveSymlinkTarget (dirnameOf itemPath)
              (trimString targetRaw)) with
            | some content => [(fileKey, content)]
            | none => []))) := by
  refine ⟨?_, ?_, ?_, ?_, ?_⟩
  · intro h1
    simp [resolveSymlinkTarget, h1]
  · intro h1 h2
    simp [resolveSymlinkTarget, h1, h2]
  · intro h1 h2 h3
    simp [resolveSymlinkTarget, h1, h2, h3, foldl_collapse_eq_walkUpSpec]
  · intro h1 h2 h3
    simp [resolveSymlinkTarget, h1, h2, h3]
  · intro st fetchDir branch fileKey itemPath downloadUrl targetRaw hdown
    constructor
    · intro hne
      simp only [symlinkFetch, hdown]
      rw [if_pos (List.length_pos.mpr hne)]
    · intro hemp
      simp only [symlinkFetch, hdown]
      rw [if_neg (by simp [hemp])]

/-- Witness for C9: `../shared/lib` seen from `skills/pr` walks up one
directory and descends again. -/
theorem symlinkTarget_resolution_spec_witness :
    resolveSymlinkTarget "skills/pr" "../shared/lib" = "skills/shared/lib" := by
  have h := (symlinkTarget_resolution_spec "skills/pr" "../shared/lib").2.2.1
    (by decide) (by decide) (by decide)
  rw [h]
  decide

end SkillsRepo
